import Mathlib

/-!
Verification of the package-suggestion engine of a Flutter auto-import
editor extension (source: src/extension.ts).  The TypeScript source is
shallowly embedded: document and manifest texts are `String` / `List Char`,
asynchronous completions become explicit event traces, child processes and
the network become oracle functions supplied as arguments, and the external
JSON / YAML libraries become oracle inputs describing their outcome.
-/

namespace AutoImport

/-! ### Basic text helpers (JS string semantics on ASCII text) -/

/-- Lower-case a string character by character; models
`String.prototype.toLowerCase` on ASCII text. -/
def lowerString (s : String) : String := String.mk (s.data.map Char.toLower)

/-- Decide whether `pat` starts the list `l` and otherwise recurse down the
tail: models `String.prototype.includes(pat)` on the text `l`. -/
def containsSub (pat : List Char) : List Char → Bool
  | [] => pat.isPrefixOf ([] : List Char)
  | c :: l => pat.isPrefixOf (c :: l) || containsSub pat l

/-- Number of start positions at which `pat` occurs in the list (the last
position of the empty suffix included). -/
def countOccs (pat : List Char) : List Char → Nat
  | [] => if pat.isPrefixOf ([] : List Char) then 1 else 0
  | c :: l => (if pat.isPrefixOf (c :: l) then 1 else 0) + countOccs pat l

/-- Proposition that `needle` occurs contiguously inside `hay`. -/
def OccursIn (needle hay : List Char) : Prop := ∃ a b, hay = a ++ needle ++ b

/-- Containment check on strings, needle-in-haystack: models
`hay.includes(needle)` of JS. -/
def strContains (hay needle : String) : Bool := containsSub needle.data hay.data

/-- Split a character list at newline characters; models
`text.split("\n")` of JS (an empty text yields one empty line). -/
def splitLines : List Char → List (List Char)
  | [] => [[]]
  | '\n' :: rest => [] :: splitLines rest
  | c :: rest =>
    match splitLines rest with
    | [] => [[c]]
    | l :: ls => (c :: l) :: ls

/-! ### Capabilities table (extension.ts, getPackageMethods) -/

/-- Static package-name to known-symbols table transcribed from the
`methodMap` object literal of `getPackageMethods` (extension.ts:978-1040). -/
def methodMap : List (String × List String) :=
  [ ("dio", ["get", "post", "put", "delete", "head", "patch", "download", "fetch"]),
    ("get", ["to", "off", "offAll", "lazyPut", "put", "find", "reset"]),
    ("flutter_bloc", ["BlocProvider", "BlocBuilder", "BlocListener", "BlocConsumer",
      "RepositoryProvider"]),
    ("provider", ["Provider", "ChangeNotifierProvider", "Consumer", "Selector",
      "MultiProvider", "FutureProvider", "StreamProvider"]),
    ("http", ["get", "post", "put", "delete", "head", "patch", "read"]),
    ("shared_preferences", ["getInt", "setInt", "getBool", "setBool", "getDouble",
      "setDouble", "getString", "setString", "getStringList", "setStringList",
      "remove", "clear"]),
    ("cached_network_image", ["CachedNetworkImage", "CachedNetworkImageProvider",
      "clearCache"]),
    ("intl", ["DateFormat", "NumberFormat", "BidiFormatter", "MessageLookup",
      "Intl.defaultLocale"]),
    ("url_launcher", ["launch", "canLaunch", "launchUrl"]),
    ("path_provider", ["getTemporaryDirectory", "getApplicationDocumentsDirectory",
      "getApplicationSupportDirectory", "getLibraryDirectory",
      "getExternalStorageDirectory"]),
    ("sqflite", ["openDatabase", "deleteDatabase", "Database", "DatabaseFactory",
      "Batch"]) ]

/-- Value a JS index expression on the `methodMap` object literal can
evaluate to: a string array stored as an own property, or a truthy
non-array value inherited from `Object.prototype` (a function or an
object). -/
inductive MethodsValue
  | arr (ms : List String)
  | protoObj
deriving DecidableEq, Repr

/-- Property names every plain JS object inherits from `Object.prototype`:
indexing the object literal with one of these yields the inherited value,
not `undefined`. -/
def objectPrototypeKeys : List String :=
  ["constructor", "hasOwnProperty", "isPrototypeOf", "propertyIsEnumerable",
    "toLocaleString", "toString", "valueOf", "__defineGetter__",
    "__defineSetter__", "__lookupGetter__", "__lookupSetter__", "__proto__"]

/-- Model of the JS index expression `methodMap[key]`: own properties of
the object literal first, then the prototype chain (`Object.prototype`,
whose property values are all truthy non-arrays); `none` models
`undefined`. -/
def methodMapIndex (key : String) : Option MethodsValue :=
  match methodMap.lookup key with
  | some ms => some (.arr ms)
  | none => if key ∈ objectPrototypeKeys then some .protoObj else none

/-- Capability lookup of extension.ts:978-1042,
`methodMap[packageName.toLowerCase()] || []`: the index result when it is
truthy (own arrays and inherited prototype values both are), the empty
array only when the index yields `undefined`. -/
def getPackageMethods (packageName : String) : MethodsValue :=
  match methodMapIndex (lowerString packageName) with
  | some v => v
  | none => .arr []

/-! ### Suggestion-session rendering model (extension.ts, showPackageSearch)

The debounced `updateItems` callback (extension.ts:341-422) issues a catalog
fetch and, when that fetch completes, assigns `quickPick.items`
unconditionally; the source keeps no request generation counter.  A session
run is a trace of issue/resolve events over fetch identifiers; `result g`
is the item list produced by fetch `g`. -/

/-- Asynchronous event of one suggestion session: a catalog fetch is issued,
or an issued fetch resolves and its completion handler runs. -/
inductive FetchEvent
  | issue (g : Nat)
  | resolve (g : Nat)
deriving DecidableEq, Repr

/-- Effect of one event on the rendered item list: the completion handler of
extension.ts:379 (`quickPick.items = packages.map ...`) assigns the resolving
fetch's result unconditionally, issuing changes nothing. -/
def renderStep (result : Nat → Nat) (st : Option Nat) : FetchEvent → Option Nat
  | .issue _ => st
  | .resolve g => some (result g)

/-- Rendered item list after a whole session trace (initially nothing). -/
def runSession (result : Nat → Nat) (trace : List FetchEvent) : Option Nat :=
  trace.foldl (renderStep result) none

/-- Accumulate the identifier of the most recent resolve event. -/
def lastStep (acc : Option Nat) (e : FetchEvent) : Option Nat :=
  match e with
  | .resolve g => some g
  | .issue _ => acc

/-- Identifier of the last fetch to resolve in a trace, if any resolved. -/
def lastResolved (trace : List FetchEvent) : Option Nat :=
  trace.foldl lastStep none

/-! ### Mutation executor (extension.ts, runFlutterPubAdd / runFlutterPubRemove) -/

/-- Outcome of one external child process: whether it exited zero, and its
captured standard-error text. -/
structure ProcResult where
  ok : Bool
  stderr : String
deriving DecidableEq, Repr

/-- Stringification of a JS `Error` built as `new Error(stderr)`:
`Error.prototype.toString` yields just the name when the message is empty. -/
def jsErrorString (stderr : String) : String :=
  if stderr = "" then "Error" else "Error: " ++ stderr

/-- Model of `runFlutterPubAdd` (extension.ts:686-737) over a process oracle
`run`.  Returns the list of commands started, in order, and the final
user-visible notification text.  The first `exec` rejects with
`new Error(stderr)` on non-zero exit, in which case the `catch` reports the
failure and `flutter pub get` never starts. -/
def runFlutterPubAdd (run : String → ProcResult) (pkg : String) :
    List String × String :=
  let addCmd := "flutter pub add " ++ pkg
  let r1 := run addCmd
  if r1.ok = false then
    ([addCmd], "❌ Failed to add package: " ++ jsErrorString r1.stderr)
  else
    let r2 := run "flutter pub get"
    if r2.ok = false then
      ([addCmd, "flutter pub get"],
        "❌ Failed to add package: " ++ jsErrorString r2.stderr)
    else
      ([addCmd, "flutter pub get"], "✅ Package '" ++ pkg ++ "' added and imported")

/-- Model of `runFlutterPubRemove` (extension.ts:739-780), same shape as the
add pipeline with the remove subcommand and messages. -/
def runFlutterPubRemove (run : String → ProcResult) (pkg : String) :
    List String × String :=
  let rmCmd := "flutter pub remove " ++ pkg
  let r1 := run rmCmd
  if r1.ok = false then
    ([rmCmd], "❌ Failed to remove package: " ++ jsErrorString r1.stderr)
  else
    let r2 := run "flutter pub get"
    if r2.ok = false then
      ([rmCmd, "flutter pub get"],
        "❌ Failed to remove package: " ++ jsErrorString r2.stderr)
    else
      ([rmCmd, "flutter pub get"], "✅ Package '" ++ pkg ++ "' removed")

/-! ### Registry payloads and detail fetch (extension.ts, fetchPackageDetails)

Network responses and the external `JSON.parse` are oracle inputs: a
response is `none` on a network error, otherwise a status code paired with
`none` when the body is malformed JSON or `some` parsed JSON value. -/

/-- Minimal JSON value universe for registry payloads. -/
inductive JVal
  | jnull
  | jbool (b : Bool)
  | jnum (q : Rat)
  | jstr (s : String)
  | jarr (xs : List JVal)
  | jobj (fields : List (String × JVal))

/-- Optional-chaining field access (`v?.field` of JS): a field of an object,
`none` on any non-object or missing field. -/
def JVal.getField (v : JVal) (k : String) : Option JVal :=
  match v with
  | .jobj fields => fields.lookup k
  | _ => none

/-- Detail-fetch result of extension.ts:864-892; every field optional, the
empty record models `resolve({})`. -/
structure PkgDetails where
  description : Option JVal := none
  latestVersion : Option JVal := none
  popularity : Option JVal := none

/-- The all-absent detail record (`{}` of JS). -/
def PkgDetails.empty : PkgDetails := {}

/-- True on the degraded inputs of extension.ts:864-892: network error
(`none`), non-200 status, or a body `JSON.parse` could not parse. -/
def detailsDegraded (resp : Option (Nat × Option JVal)) : Bool :=
  match resp with
  | none => true
  | some (status, body) => status != 200 || body.isNone

/-- Model of `fetchPackageDetails` (extension.ts:864-892).  The promise
executor only ever calls `resolve`: the `error` event, a non-200 status and
a `JSON.parse` exception all resolve with `{}`; a parsed body resolves with
the optionally-chained fields.  The `Except` codomain mirrors the promise:
an `Except.error` would be a rejection, and no branch produces one. -/
def fetchPackageDetails (resp : Option (Nat × Option JVal)) :
    Except String PkgDetails :=
  match resp with
  | none => .ok {}
  | some (status, body) =>
    if status ≠ 200 then .ok {}
    else
      match body with
      | none => .ok {}
      | some j =>
        .ok { description :=
                ((j.getField "latest").bind (fun v => v.getField "pubspec")).bind
                  (fun v => v.getField "description")
              latestVersion := (j.getField "latest").bind (fun v => v.getField "version")
              popularity := j.getField "popularityScore" }

/-! ### Manifest parsing (extension.ts, fetchMatchingPackages lines 924-950)

The structured strategy calls the external `js-yaml` loader; its outcome is
an oracle input.  The fallback strategy is implemented from the source: each
line matching `^\s*([a-zA-Z0-9_-]+):` contributes its captured identifier,
lower-cased. -/

/-- Character class `\s` of a JS regex, restricted to characters that can
appear inside one line of a split text (no newline). -/
def jsSpace (c : Char) : Bool :=
  c == ' ' || c == '\t' || c == '\r' || c == '\x0b' || c == '\x0c'

/-- Character class `[a-zA-Z0-9_-]` of the fallback regex. -/
def regexWordChar (c : Char) : Bool :=
  c.isAlpha || c.isDigit || c == '_' || c == '-'

/-- Key captured by the fallback regex `^\s*([a-zA-Z0-9_-]+):` on one line:
skip leading whitespace, take the maximal identifier run, and require a
colon right after it (greedy matching with this character class never needs
backtracking, since identifier characters are never the colon). -/
def fallbackLineKey (line : List Char) : Option String :=
  let afterSpace := line.dropWhile jsSpace
  let k := afterSpace.takeWhile regexWordChar
  if k ≠ [] ∧ (afterSpace.drop k.length).head? = some ':' then
    some (String.mk k)
  else none

/-- All keys the fallback strategy extracts from a manifest text,
lower-cased, in line order (extension.ts:942-948). -/
def fallbackDepKeys (content : String) : List String :=
  ((splitLines content.data).filterMap fallbackLineKey).map lowerString

/-- Outcome of the external `yaml.load` call on the manifest text:
`failed` when the loader threw (or `Object.keys` threw on a null
`dependencies` value, caught by the same handler), `parsed none` when the
loaded value is not an object carrying a `dependencies` mapping, and
`parsed (some ks)` when it is, with `ks` the keys in insertion order. -/
inductive YamlOutcome
  | failed
  | parsed (deps : Option (List String))
deriving DecidableEq, Repr

/-- Installed-package name set of extension.ts:924-950: empty for an absent
or empty manifest, the lower-cased structured dependency keys when `yaml.load`
produced them, the fallback keys when it threw. -/
def installedSetOf (pubspecContent : String) (y : YamlOutcome) : List String :=
  if pubspecContent = "" then []
  else
    match y with
    | .parsed (some ks) => ks.map lowerString
    | .parsed none => []
    | .failed => fallbackDepKeys pubspecContent

/-! ### Structured-parse model of a simple well-formed manifest (for the
parser-equivalence property)

`js-yaml` is an external library; on the flat two-level subset below its
behaviour is the standard YAML one and is modelled directly: a well-formed
manifest is a sequence of top-level `key: scalar` or block-opening `key:`
lines, with every block consisting of two-space-indented `key: scalar`
entries, keys drawn from the identifier alphabet.  The structured
dependency keys are the entries of the block opened by `dependencies:`. -/

/-- Package/manifest identifier characters (lower-case letters, digits,
underscore), the alphabet of well-formed manifest keys. -/
def keyChar (c : Char) : Bool := c.isLower || c.isDigit || c == '_'

/-- Characters allowed in a plain scalar value of the well-formed subset. -/
def scalarChar (c : Char) : Bool :=
  c.isAlphanum || c == '.' || c == '^' || c == '~' || c == '<' || c == '>' ||
    c == '=' || c == '+' || c == '-' || c == '_' || c == ' ' || c == '/'

/-- Value text following the colon of a well-formed line: empty, or a space
followed by plain scalar characters. -/
def okValue (v : List Char) : Bool :=
  v.isEmpty || (v.head? == some ' ' && (v.drop 1).all scalarChar)

/-- Shape of one line of the well-formed manifest subset. -/
inductive LineKind
  | top (k : String) (opensBlock : Bool)
  | indent (k : String)
  | bad
deriving DecidableEq, Repr

/-- Parse `key:` followed by an admissible value at the start of a line
fragment: the maximal identifier run, a colon right after it, and a
well-formed value text. -/
def parseEntry (cs : List Char) : Option (String × List Char) :=
  let k := cs.takeWhile keyChar
  let rest := cs.drop k.length
  if k ≠ [] ∧ rest.head? = some ':' ∧ okValue (rest.drop 1) = true then
    some (String.mk k, rest.drop 1)
  else none

/-- Classify one line of the subset: a two-space-indented block entry, a
top-level entry (block-opening when its value is empty), or out of the
subset. -/
def classifyLine (line : List Char) : LineKind :=
  if line.take 2 = [' ', ' '] then
    match parseEntry (line.drop 2) with
    | some (k, _) => .indent k
    | none => .bad
  else
    match parseEntry line with
    | some (k, v) => .top k v.isEmpty
    | none => .bad

/-- Keys of the block opened by the top-level `dependencies:` line, walking
the lines while tracking the current top-level key. -/
def yamlDepsGo (cur : Option String) : List (List Char) → List String
  | [] => []
  | line :: rest =>
    match classifyLine line with
    | .top k _ => yamlDepsGo (some k) rest
    | .indent k =>
      (if cur = some "dependencies" then [k] else []) ++ yamlDepsGo cur rest
    | .bad => yamlDepsGo cur rest

/-- Structured dependency keys of a well-formed manifest, lower-cased as in
`Object.keys(pubspec.dependencies).forEach(dep => add(dep.toLowerCase()))`. -/
def structDepKeys (content : String) : List String :=
  (yamlDepsGo none (splitLines content.data)).map lowerString

/-- Well-formedness walk: every line classifies, indented entries appear
only inside an opened block, and an opened block is never empty. -/
def wfGo : Bool → Bool → List (List Char) → Bool
  | _, needIndent, [] => !needIndent
  | allowIndent, needIndent, line :: rest =>
    match classifyLine line with
    | .bad => false
    | .top _ opens => !needIndent && wfGo opens opens rest
    | .indent _ => allowIndent && wfGo allowIndent false rest

/-- A manifest text of the simple well-formed subset. -/
def wellFormedManifest (content : String) : Bool :=
  wfGo false false (splitLines content.data)

/-! ### Catalog construction (extension.ts, fetchMatchingPackages) -/

/-- One element of the `packages` array of the search response, after JSON
parsing: the `package` name (the code accesses it unconditionally), and the
optional enrichment fields.  A `description` of `none` models both an
absent field and the empty string, the two falsy cases of
`pkg.description || ...` for string payloads. -/
structure RegPkg where
  package : String
  description : Option String := none
  popularityScore : Option Rat := none
  latestVersion : Option String := none
deriving DecidableEq, Repr

/-- Parsed search response body: the `packages` field may be absent
(`results.packages?.slice(0, 10) ... || []`). -/
structure SearchPayload where
  packages : Option (List RegPkg) := none
deriving DecidableEq, Repr

/-- Record type of the catalog (interface `PackageInfo`, extension.ts:11-20). -/
structure PackageInfo where
  name : String
  description : Option String := none
  isInstalled : Bool
  isImported : Bool
  methods : MethodsValue := .arr []
  version : Option String := none
  popularity : Option Rat := none
  latestVersion : Option String := none
deriving DecidableEq, Repr

/-- The explicit sentinel used when the registry supplies no description. -/
def noDescriptionSentinel : String := "No description available"

/-- Canonical import reference for a package name, the substring the code
builds for containment checks: `package:<name>/<name>.dart`. -/
def canonicalRef (p : String) : String :=
  "package:" ++ p ++ "/" ++ p ++ ".dart"

/-- Build one catalog record from one search hit (extension.ts:952-963). -/
def mkSearchRecord (installed : List String) (fileContent : String)
    (pkg : RegPkg) : PackageInfo :=
  { name := pkg.package
    description := some (pkg.description.getD noDescriptionSentinel)
    isInstalled := installed.contains (lowerString pkg.package)
    isImported := strContains fileContent (canonicalRef pkg.package)
    methods := getPackageMethods pkg.package
    popularity := pkg.popularityScore
    latestVersion := pkg.latestVersion }

/-- Model of `fetchMatchingPackages` (extension.ts:894-976).  A non-200
status rejects; a body `JSON.parse` cannot parse rejects through the catch
handler; otherwise the first ten search hits are mapped to annotated
records against the installed set derived from the manifest text and the
`yaml.load` outcome. -/
def fetchMatchingPackages (status : Nat) (body : Option SearchPayload)
    (pubspecContent : String) (y : YamlOutcome) (fileContent : String) :
    Except String (List PackageInfo) :=
  if status ≠ 200 then
    .error ("Request failed with status code " ++ toString status)
  else
    match body with
    | none => .error "SyntaxError: Unexpected token in JSON"
    | some payload =>
      let installed := installedSetOf pubspecContent y
      .ok (((payload.packages.getD []).take 10).map
        (mkSearchRecord installed fileContent))

/-- Installed check of the quick-fix provider (extension.ts:251): a
case-sensitive substring test of `<selectedText>:` against the raw
manifest text. -/
def pubspecInstalledCheck (content selectedText : String) : Bool :=
  strContains content (selectedText ++ ":")

/-- Imported check of the quick-fix provider (extension.ts:252-254):
containment of the canonical import reference in the document text. -/
def pubspecImportedCheck (documentText selectedText : String) : Bool :=
  strContains documentText (canonicalRef selectedText)

/-! ### Import editor (extension.ts, addImportStatement) -/

/-- Single atomic edit combining the two builder calls of
extension.ts:670-674: positions refer to the original document, the range
`[a, b)` is deleted. -/
def deleteRange (doc : List Char) (a b : Nat) : List Char :=
  doc.take a ++ doc.drop b

/-- Canonical import line built at extension.ts:666:
`import 'package:<p>/<p>.dart';` followed by the newline. -/
def canonicalImportChars (p : List Char) : List Char :=
  ("import 'package:".data ++ p ++ '/' :: p ++ ".dart';".data) ++ ['\n']

/-- Model of `addImportStatement` (extension.ts:658-684) on the document
text.  When the canonical line is not yet contained, a single edit deletes
the selection range and inserts the line at the start of the first line
(offset zero); when it is contained, the edit only deletes the range. -/
def addImportStatement (p : List Char) (doc : List Char) (r : Nat × Nat) :
    List Char :=
  let imp := canonicalImportChars p
  if containsSub imp doc then deleteRange doc r.1 r.2
  else imp ++ deleteRange doc r.1 r.2

/-! ## Supporting lemmas -/

theorem lastStep_seeded (tr : List FetchEvent) :
    ∀ a : Option Nat,
      tr.foldl lastStep a =
        match tr.foldl lastStep none with
        | some g => some g
        | none => a := by
  induction tr with
  | nil => intro a; rfl
  | cons e tr ih =>
    intro a
    cases e with
    | issue g => simpa [List.foldl_cons, lastStep] using ih a
    | resolve g =>
      simp only [List.foldl_cons, lastStep]
      rw [ih (some g)]
      cases h : tr.foldl lastStep none <;> simp

theorem runSession_seeded (result : Nat → Nat) (tr : List FetchEvent) :
    ∀ a : Option Nat,
      tr.foldl (renderStep result) (Option.map result a) =
        Option.map result (tr.foldl lastStep a) := by
  induction tr with
  | nil => intro a; rfl
  | cons e tr ih =>
    intro a
    cases e with
    | issue g => simpa [List.foldl_cons, renderStep, lastStep] using ih a
    | resolve g =>
      simp only [List.foldl_cons, renderStep, lastStep]
      simpa using ih (some g)

theorem lookup_of_not_mem_keys {α β : Type} [BEq α] [LawfulBEq α]
    (l : List (α × β)) (a : α) (h : a ∉ l.map Prod.fst) : l.lookup a = none := by
  induction l with
  | nil => rfl
  | cons p t ih =>
    simp only [List.map_cons, List.mem_cons, not_or] at h
    rw [List.lookup_cons]
    have : (a == p.fst) = false := beq_false_of_ne h.1
    rw [this]
    exact ih h.2

theorem occursIn_of_append {pat t l : List Char} (h : pat ++ t = l) :
    OccursIn pat l := ⟨[], t, by simpa using h.symm⟩

theorem prefixOf_iff_exists (pat : List Char) (l : List Char) :
    pat.isPrefixOf l = true ↔ ∃ t, pat ++ t = l := by
  induction pat generalizing l with
  | nil => simp [List.isPrefixOf]
  | cons p ps ih =>
    cases l with
    | nil => simp [List.isPrefixOf]
    | cons c cs =>
      simp only [List.isPrefixOf, Bool.and_eq_true, beq_iff_eq, ih,
        List.cons_append, List.cons.injEq]
      constructor
      · rintro ⟨hpc, t, ht⟩
        exact ⟨t, hpc, ht⟩
      · rintro ⟨t, hpc, ht⟩
        exact ⟨hpc, t, ht⟩

theorem containsSub_iff (pat : List Char) (l : List Char) :
    containsSub pat l = true ↔ OccursIn pat l := by
  induction l with
  | nil =>
    simp only [containsSub, prefixOf_iff_exists]
    constructor
    · rintro ⟨t, ht⟩
      exact occursIn_of_append ht
    · rintro ⟨a, b, hab⟩
      have ha : a = [] := by
        cases a with
        | nil => rfl
        | cons x xs => simp at hab
      subst ha
      have hp : pat = [] := by
        cases pat with
        | nil => rfl
        | cons x xs => simp at hab
      subst hp
      exact ⟨[], rfl⟩
  | cons c l ih =>
    simp only [containsSub, Bool.or_eq_true, ih, prefixOf_iff_exists]
    constructor
    · rintro (⟨t, ht⟩ | ⟨a, b, hab⟩)
      · exact occursIn_of_append ht
      · exact ⟨c :: a, b, by simp [hab]⟩
    · rintro ⟨a, b, hab⟩
      cases a with
      | nil =>
        left
        simp only [List.nil_append] at hab
        exact ⟨b, hab.symm⟩
      | cons x xs =>
        right
        simp only [List.cons_append] at hab
        injection hab with hx hrest
        exact ⟨xs, b, hrest⟩

/-! ## Claim C1: staleness rejection of catalog fetches -/

/-- C1, counterexample.  Fetch 0 is issued, fetch 1 is issued before fetch 0
resolves, and fetch 0 resolves after fetch 1.  The claim requires the
rendered list to stay at fetch 1's result (`some 1`); the source has no
generation-counter check, the completion handler assigns unconditionally,
and the stale result of fetch 0 overwrites the newer rendering. -/
theorem claim1_staleness_counterexample :
    runSession (fun g => g)
        [.issue 0, .issue 1, .resolve 1, .resolve 0] = some 0 ∧
      (some 0 : Option Nat) ≠ some 1 := by
  exact ⟨rfl, by decide⟩

/-- C1, amended.  The rendered item list after any session trace is the
result of the fetch that resolved last, regardless of issue order: the
completion handler applies every arriving result, so completion order, not
issuance order, decides the final rendering.  (The debounce timer only
prevents a superseded fetch from being issued at all; once two fetches are
in flight there is no staleness check.) -/
theorem claim1_render_is_last_completed (result : Nat → Nat)
    (trace : List FetchEvent) :
    runSession result trace = Option.map result (lastResolved trace) := by
  have h := runSession_seeded result trace none
  simpa [runSession, lastResolved] using h

/-! ## Claim C4: sequential mutation pipeline with fail-fast reporting -/

/-- C4.  For both mutation pipelines: when the add/remove subcommand exits
non-zero, the started-command trace is exactly that one subcommand (no
resync, no retry) and the reported message contains the captured stderr
text; conversely the resync command appears in the trace only when the
add/remove subcommand exited zero. -/
theorem claim4_mutation_failfast (run : String → ProcResult) (pkg : String) :
    ((run ("flutter pub add " ++ pkg)).ok = false →
      (runFlutterPubAdd run pkg).1 = ["flutter pub add " ++ pkg] ∧
        OccursIn (run ("flutter pub add " ++ pkg)).stderr.data
          (runFlutterPubAdd run pkg).2.data) ∧
    ("flutter pub get" ∈ (runFlutterPubAdd run pkg).1 →
      (run ("flutter pub add " ++ pkg)).ok = true) ∧
    ((run ("flutter pub remove " ++ pkg)).ok = false →
      (runFlutterPubRemove run pkg).1 = ["flutter pub remove " ++ pkg] ∧
        OccursIn (run ("flutter pub remove " ++ pkg)).stderr.data
          (runFlutterPubRemove run pkg).2.data) ∧
    ("flutter pub get" ∈ (runFlutterPubRemove run pkg).1 →
      (run ("flutter pub remove " ++ pkg)).ok = true) := by
  have hne : ∀ pre : String, 15 < pre.length →
      "flutter pub get" ≠ pre ++ pkg := by
    intro pre hpre h
    have hlen := congrArg String.length h
    rw [String.length_append] at hlen
    have h15 : ("flutter pub get" : String).length = 15 := by decide
    rw [h15] at hlen
    omega
  have hocc : ∀ s : String, OccursIn s.data (jsErrorString s).data := by
    intro s
    by_cases hs : s = ""
    · subst hs
      exact ⟨"Error".data, [], by simp [jsErrorString]⟩
    · refine ⟨"Error: ".data, [], ?_⟩
      simp [jsErrorString, hs]
  refine ⟨?_, ?_, ?_, ?_⟩
  · intro h
    rw [runFlutterPubAdd]
    simp only [h]
    refine ⟨rfl, ?_⟩
    obtain ⟨a, b, hab⟩ := hocc (run ("flutter pub add " ++ pkg)).stderr
    exact ⟨"❌ Failed to add package: ".data ++ a, b, by simp [hab]⟩
  · intro h
    cases hok : (run ("flutter pub add " ++ pkg)).ok with
    | true => rfl
    | false =>
      exfalso
      have htr : (runFlutterPubAdd run pkg).1 = ["flutter pub add " ++ pkg] := by
        rw [runFlutterPubAdd]
        simp [hok]
      rw [htr, List.mem_singleton] at h
      exact hne "flutter pub add " (by decide) h
  · intro h
    rw [runFlutterPubRemove]
    simp only [h]
    refine ⟨rfl, ?_⟩
    obtain ⟨a, b, hab⟩ := hocc (run ("flutter pub remove " ++ pkg)).stderr
    exact ⟨"❌ Failed to remove package: ".data ++ a, b, by simp [hab]⟩
  · intro h
    cases hok : (run ("flutter pub remove " ++ pkg)).ok with
    | true => rfl
    | false =>
      exfalso
      have htr : (runFlutterPubRemove run pkg).1 =
          ["flutter pub remove " ++ pkg] := by
        rw [runFlutterPubRemove]
        simp [hok]
      rw [htr, List.mem_singleton] at h
      exact hne "flutter pub remove " (by decide) h

/-- Process oracle used to witness C4: the add subcommand for `foo` fails
with stderr `boom`, everything else succeeds. -/
def sampleRun : String → ProcResult :=
  fun c => if c = "flutter pub add foo" then ⟨false, "boom"⟩ else ⟨true, ""⟩

/-- C4, witness at a concrete process oracle. -/
theorem claim4_witness :
    (runFlutterPubAdd sampleRun "foo").1 = ["flutter pub add foo"] ∧
      OccursIn "boom".data (runFlutterPubAdd sampleRun "foo").2.data ∧
      (sampleRun "flutter pub remove foo").ok = true := by
  have t := claim4_mutation_failfast sampleRun "foo"
  have h1 := t.1 (by rfl)
  exact ⟨h1.1, h1.2, t.2.2.2 (by decide)⟩

/-! ## Claim C7: detail fetch never fails its caller -/

/-- C7.  `fetchPackageDetails` always resolves, and on a network error, a
non-200 response or a malformed payload it resolves with the empty
record. -/
theorem claim7_details_never_fail (resp : Option (Nat × Option JVal)) :
    (∃ d, fetchPackageDetails resp = Except.ok d) ∧
      (detailsDegraded resp = true →
        fetchPackageDetails resp = Except.ok PkgDetails.empty) := by
  match resp with
  | none => exact ⟨⟨PkgDetails.empty, rfl⟩, fun _ => rfl⟩
  | some (status, body) =>
    by_cases hs : status = 200
    · subst hs
      match body with
      | none => exact ⟨⟨PkgDetails.empty, rfl⟩, fun _ => rfl⟩
      | some j =>
        refine ⟨⟨_, rfl⟩, fun h => ?_⟩
        simp [detailsDegraded] at h
    · have hs' : status ≠ 200 := hs
      refine ⟨⟨PkgDetails.empty, ?_⟩, fun _ => ?_⟩ <;>
        simp [fetchPackageDetails, hs', PkgDetails.empty]

/-- C7, witness: a 500 response with an unparseable body resolves with the
empty record. -/
theorem claim7_witness :
    detailsDegraded (some (500, none)) = true ∧
      fetchPackageDetails (some (500, none)) = Except.ok PkgDetails.empty :=
  ⟨rfl, (claim7_details_never_fail (some (500, none))).2 rfl⟩

/-! ## Claim C10: capability lookup is case-insensitive, but not total to
the empty list -/

/-- C10, counterexample.  The names `constructor` and `__proto__` match the
identifier pattern, are already lower-case, and are not keys of the fixed
table, yet the JS index finds the truthy values inherited from
`Object.prototype`, so `|| []` never applies and the lookup does not yield
the empty list. -/
theorem claim10_counterexample :
    lowerString "constructor" ∉ methodMap.map Prod.fst ∧
      getPackageMethods "constructor" ≠ MethodsValue.arr [] ∧
      lowerString "__proto__" ∉ methodMap.map Prod.fst ∧
      getPackageMethods "__proto__" ≠ MethodsValue.arr [] := by
  decide

/-- C10, amended.  The capability lookup lower-cases its argument before
indexing the fixed table, so names equal up to case give the same result;
a name whose lower-casing is neither a table key nor an `Object.prototype`
property name gives the empty list; for a lower-cased name that is an
inherited property name and not a table key, the index returns the truthy
inherited value and the empty-list default does not apply. -/
theorem claim10_capabilities_casefold_amended :
    (∀ a b : String, lowerString a = lowerString b →
      getPackageMethods a = getPackageMethods b) ∧
    (∀ n : String, lowerString n ∉ methodMap.map Prod.fst →
      lowerString n ∉ objectPrototypeKeys →
      getPackageMethods n = MethodsValue.arr []) ∧
    (∀ n : String, lowerString n ∉ methodMap.map Prod.fst →
      lowerString n ∈ objectPrototypeKeys →
      getPackageMethods n = MethodsValue.protoObj) := by
  refine ⟨?_, ?_, ?_⟩
  · intro a b h
    unfold getPackageMethods
    rw [h]
  · intro n h hpr
    unfold getPackageMethods methodMapIndex
    rw [lookup_of_not_mem_keys _ _ h, if_neg hpr]
  · intro n h hpr
    unfold getPackageMethods methodMapIndex
    rw [lookup_of_not_mem_keys _ _ h, if_pos hpr]

/-- C10, witness at concrete names: a case-folded pair, a name outside both
the table and the prototype chain, and an inherited prototype name. -/
theorem claim10_witness :
    getPackageMethods "DIO" = getPackageMethods "dio" ∧
      getPackageMethods "unknown_pkg" = MethodsValue.arr [] ∧
      getPackageMethods "constructor" = MethodsValue.protoObj :=
  ⟨claim10_capabilities_casefold_amended.1 "DIO" "dio" (by decide),
    claim10_capabilities_casefold_amended.2.1 "unknown_pkg" (by decide)
      (by decide),
    claim10_capabilities_casefold_amended.2.2 "constructor" (by decide)
      (by decide)⟩

/-! ## Claim C8: search truncation and description normalization -/

/-- C8.  Every successful search produces at most ten records; every record
carries a present description; and every hit among the first ten whose
registry description is absent yields a record carrying the explicit
no-description sentinel. -/
theorem claim8_search_truncation
    (status : Nat) (body : Option SearchPayload) (pubspec : String)
    (y : YamlOutcome) (file : String) (l : List PackageInfo)
    (h : fetchMatchingPackages status body pubspec y file = Except.ok l) :
    l.length ≤ 10 ∧
      (∀ r ∈ l, r.description.isSome = true) ∧
      (∀ payload, body = some payload →
        ∀ pkg ∈ (payload.packages.getD []).take 10,
          mkSearchRecord (installedSetOf pubspec y) file pkg ∈ l ∧
            (pkg.description = none →
              (mkSearchRecord (installedSetOf pubspec y) file pkg).description =
                some noDescriptionSentinel)) := by
  by_cases hs : status = 200
  · subst hs
    rw [fetchMatchingPackages.eq_def] at h
    simp only [ne_eq, not_true_eq_false, if_false, ite_false] at h
    cases body with
    | none => simp at h
    | some payload0 =>
      simp only [Except.ok.injEq] at h
      refine ⟨?_, ?_, ?_⟩
      · rw [← h, List.length_map, List.length_take]
        exact Nat.min_le_left _ _
      · intro r hr
        rw [← h] at hr
        obtain ⟨pkg, _, hpkg⟩ := List.mem_map.1 hr
        rw [← hpkg]
        rfl
      · intro payload hpay pkg hmem
        injection hpay with hpay
        subst hpay
        constructor
        · rw [← h]
          exact List.mem_map_of_mem _ hmem
        · intro hdesc
          simp [mkSearchRecord, hdesc]
  · rw [fetchMatchingPackages.eq_def] at h
    simp [hs] at h

/-- Registry search hits used by witnesses: one described, one without a
description. -/
def sampleHits : List RegPkg :=
  [{ package := "http", description := some "HTTP client" },
    { package := "dio" }]

/-- Search payload wrapping the sample hits. -/
def samplePayload : SearchPayload := { packages := some sampleHits }

/-- C8, witness at a concrete successful response. -/
theorem claim8_witness :
    ∃ l, fetchMatchingPackages 200 (some samplePayload) "" (.parsed none) "" =
        Except.ok l ∧
      l.length ≤ 10 ∧
      (mkSearchRecord (installedSetOf "" (.parsed none)) ""
          { package := "dio" }).description = some noDescriptionSentinel := by
  have t := claim8_search_truncation 200 (some samplePayload) ""
    (.parsed none) "" _ rfl
  exact ⟨_, rfl, t.1,
    (t.2.2 samplePayload rfl { package := "dio" } (by decide)).2 rfl⟩

/-! ## Claim C6: imported flag is exact canonical-substring containment -/

/-- C6.  The `isImported` annotation of every record of a successful search,
and the quick-fix provider's imported check, are each true exactly when the
document text contains the canonical `package:<name>/<name>.dart` reference
built from the record's name (case-sensitively). -/
theorem claim6_isImported_containment
    (status : Nat) (payload : SearchPayload) (pubspec : String)
    (y : YamlOutcome) (file : String) (l : List PackageInfo)
    (h : fetchMatchingPackages status (some payload) pubspec y file =
      Except.ok l) :
    (∀ r ∈ l, (r.isImported = true ↔
      OccursIn (canonicalRef r.name).data file.data)) ∧
    (∀ d p : String, pubspecImportedCheck d p = true ↔
      OccursIn (canonicalRef p).data d.data) := by
  constructor
  · intro r hr
    by_cases hs : status = 200
    · subst hs
      rw [fetchMatchingPackages.eq_def] at h
      simp only [ne_eq, not_true_eq_false, if_false, ite_false,
        Except.ok.injEq] at h
      rw [← h] at hr
      obtain ⟨pkg, _, hpkg⟩ := List.mem_map.1 hr
      rw [← hpkg]
      exact containsSub_iff _ _
    · rw [fetchMatchingPackages.eq_def] at h
      simp [hs] at h
  · intro d p
    exact containsSub_iff _ _

/-- C6, witness: the canonical reference for `http` occurs in a document
that imports it. -/
theorem claim6_witness :
    OccursIn (canonicalRef "http").data
      ("import 'package:http/http.dart';".data) :=
  ((claim6_isImported_containment 200 samplePayload "" (.parsed none) "" _
      rfl).2 "import 'package:http/http.dart';" "http").mp (by decide)

/-! ## Claim C3: installed flag versus case-insensitive dependency keys -/

/-- C3, amended part.  On the search path, when the structured parse
produced the dependency keys `ks` and the manifest text is non-empty, a
record's `isInstalled` is true exactly when its lower-cased name is a
lower-cased key of `ks`. -/
theorem claim3_isInstalled_search_path
    (status : Nat) (payload : SearchPayload) (pubspec : String)
    (ks : List String) (file : String) (l : List PackageInfo)
    (hp : pubspec ≠ "")
    (h : fetchMatchingPackages status (some payload) pubspec
        (.parsed (some ks)) file = Except.ok l) :
    ∀ r ∈ l, (r.isInstalled = true ↔
      lowerString r.name ∈ ks.map lowerString) := by
  intro r hr
  by_cases hs : status = 200
  · subst hs
    rw [fetchMatchingPackages.eq_def] at h
    simp only [ne_eq, not_true_eq_false, if_false, ite_false,
      Except.ok.injEq] at h
    rw [← h] at hr
    obtain ⟨pkg, _, hpkg⟩ := List.mem_map.1 hr
    rw [← hpkg]
    show (installedSetOf pubspec (.parsed (some ks))).contains
        (lowerString pkg.package) = true ↔ _
    rw [installedSetOf, if_neg hp]
    simp only [mkSearchRecord]
    exact List.elem_iff
  · rw [fetchMatchingPackages.eq_def] at h
    simp [hs] at h

/-- C3, counterexample against the quick-fix provider's check
(extension.ts:251): the flag is a case-sensitive substring test of the raw
manifest text, so it is false for the name `Http` although `http` is a
dependency key, and true for the name `http` on a manifest where `http` is
a top-level key but not a dependency. -/
theorem claim3_counterexample :
    (pubspecInstalledCheck "dependencies:\n  http: ^1.0.0" "Http" = false ∧
      lowerString "Http" ∈ structDepKeys "dependencies:\n  http: ^1.0.0") ∧
    (pubspecInstalledCheck "dependencies:\n  foo: ^1.0.0\nhttp: x" "http" =
        true ∧
      lowerString "http" ∉
        structDepKeys "dependencies:\n  foo: ^1.0.0\nhttp: x") := by
  decide

/-- C3, witness for the amended statement at a concrete catalog build. -/
theorem claim3_witness :
    ∃ l, fetchMatchingPackages 200 (some samplePayload)
        "dependencies:\n  http: ^1.0.0" (.parsed (some ["http"])) "" =
        Except.ok l ∧
      ∀ r ∈ l, (r.isInstalled = true ↔
        lowerString r.name ∈ (["http"] : List String).map lowerString) :=
  ⟨_, rfl, claim3_isInstalled_search_path 200 samplePayload
    "dependencies:\n  http: ^1.0.0" ["http"] "" _ (by decide) rfl⟩

/-! ## Claim C2: structured parse versus fallback parse -/

theorem keyChar_not_jsSpace {c : Char} (h : keyChar c = true) :
    jsSpace c = false := by
  cases hs : jsSpace c
  · rfl
  · exfalso
    have hsp : c = ' ' ∨ c = '\t' ∨ c = '\x0d' ∨ c = '\x0b' ∨ c = '\x0c' := by
      simpa [jsSpace, Bool.or_eq_true, beq_iff_eq, or_assoc] using hs
    rcases hsp with rfl | rfl | rfl | rfl | rfl <;> exact absurd h (by decide)

theorem keyChar_word {c : Char} (h : keyChar c = true) :
    regexWordChar c = true := by
  simp only [keyChar, Bool.or_eq_true, beq_iff_eq] at h
  simp only [regexWordChar, Char.isAlpha, Bool.or_eq_true, beq_iff_eq]
  rcases h with (h | h) | h
  · exact Or.inl (Or.inl (Or.inl (Or.inr h)))
  · exact Or.inl (Or.inl (Or.inr h))
  · exact Or.inl (Or.inr h)

theorem takeWhile_all_cons {p : Char → Bool} :
    ∀ (k : List Char) (x : Char) (v : List Char),
      (∀ c ∈ k, p c = true) → p x = false →
        (k ++ x :: v).takeWhile p = k := by
  intro k
  induction k with
  | nil => intro x v _ hx; simp [List.takeWhile_cons, hx]
  | cons c k ih =>
    intro x v hk hx
    have hc : p c = true := hk c (List.mem_cons_self c k)
    simp only [List.cons_append, List.takeWhile_cons, hc, if_true]
    rw [ih x v (fun d hd => hk d (List.mem_cons_of_mem c hd)) hx]

theorem parseEntry_some {cs : List Char} {k : String} {v : List Char}
    (h : parseEntry cs = some (k, v)) :
    cs = k.data ++ ':' :: v ∧ k.data ≠ [] ∧
      (∀ c ∈ k.data, keyChar c = true) := by
  simp only [parseEntry] at h
  split at h
  case isFalse => cases h
  case isTrue hc =>
    obtain ⟨hne, hhead, _⟩ := hc
    injection h with h
    injection h with hk hv
    have hsplit : cs = cs.takeWhile keyChar ++ cs.drop (cs.takeWhile keyChar).length := by
      have h1 : cs.take (cs.takeWhile keyChar).length = cs.takeWhile keyChar := by
        have h0 := List.take_left (cs.takeWhile keyChar) (cs.dropWhile keyChar)
        rwa [List.takeWhile_append_dropWhile] at h0
      conv_lhs => rw [← List.take_append_drop (cs.takeWhile keyChar).length cs]
      rw [h1]
    have hrest : cs.drop (cs.takeWhile keyChar).length =
        ':' :: (cs.drop (cs.takeWhile keyChar).length).drop 1 := by
      cases hr : cs.drop (cs.takeWhile keyChar).length with
      | nil => rw [hr] at hhead; simp at hhead
      | cons x t =>
        rw [hr] at hhead
        injection hhead with hx
        rw [hx]
        simp
    refine ⟨?_, ?_, ?_⟩
    · rw [← hk, ← hv]
      conv_lhs => rw [hsplit, hrest]
    · rw [← hk]
      exact hne
    · rw [← hk]
      intro c hcmem
      exact List.mem_takeWhile_imp hcmem

theorem classifyLine_indent {line : List Char} {k : String}
    (h : classifyLine line = .indent k) :
    ∃ v, line.take 2 = [' ', ' '] ∧ parseEntry (line.drop 2) = some (k, v) := by
  rw [classifyLine] at h
  split at h
  case isTrue h2 =>
    cases hp : parseEntry (line.drop 2) with
    | none => rw [hp] at h; cases h
    | some kv =>
      rw [hp] at h
      obtain ⟨k2, v2⟩ := kv
      injection h with h
      exact ⟨v2, h2, by rw [← h]⟩
  case isFalse h2 =>
    cases hp : parseEntry line with
    | none => rw [hp] at h; cases h
    | some kv =>
      rw [hp] at h
      obtain ⟨k2, v2⟩ := kv
      cases h

theorem fallback_of_indent {line : List Char} {k : String}
    (h : classifyLine line = .indent k) : fallbackLineKey line = some k := by
  obtain ⟨v, h2, hp⟩ := classifyLine_indent h
  obtain ⟨hcs, hne, hkc⟩ := parseEntry_some hp
  obtain ⟨kd⟩ := k
  simp only [String.data] at hcs hne hkc
  have hline : line = ' ' :: ' ' :: line.drop 2 := by
    cases line with
    | nil => simp at h2
    | cons c1 t1 =>
      cases t1 with
      | nil => simp [List.take] at h2
      | cons c2 t2 =>
        simp [List.take] at h2
        obtain ⟨rfl, rfl⟩ := h2
        rfl
  cases kd with
  | nil => exact absurd rfl hne
  | cons c ks =>
    have hcKey : keyChar c = true := hkc c (List.mem_cons_self c ks)
    have hword : ∀ d ∈ c :: ks, regexWordChar d = true :=
      fun d hd => keyChar_word (hkc d hd)
    simp only [fallbackLineKey]
    rw [hline, hcs]
    rw [List.dropWhile_cons_of_pos (by decide : jsSpace ' ' = true),
      List.dropWhile_cons_of_pos (by decide : jsSpace ' ' = true),
      List.cons_append,
      List.dropWhile_cons_of_neg (by simp [keyChar_not_jsSpace hcKey])]
    rw [← List.cons_append,
      takeWhile_all_cons (c :: ks) ':' v hword (by decide),
      List.drop_left]
    rw [if_pos ⟨List.cons_ne_nil c ks, rfl⟩]

theorem mem_yamlDepsGo {k : String} :
    ∀ (lines : List (List Char)) (cur : Option String),
      k ∈ yamlDepsGo cur lines →
        ∃ line ∈ lines, classifyLine line = .indent k := by
  intro lines
  induction lines with
  | nil => intro cur h; simp [yamlDepsGo] at h
  | cons line rest ih =>
    intro cur h
    rw [yamlDepsGo] at h
    cases hcl : classifyLine line with
    | top k2 o =>
      rw [hcl] at h
      obtain ⟨l, hl, hc⟩ := ih _ h
      exact ⟨l, List.mem_cons_of_mem _ hl, hc⟩
    | indent k2 =>
      rw [hcl] at h
      rcases List.mem_append.1 h with hin | hin
      · have hk : k = k2 := by
          by_cases hcur : cur = some "dependencies"
          · rw [if_pos hcur] at hin
            exact List.mem_singleton.1 hin
          · rw [if_neg hcur] at hin
            cases hin
        exact ⟨line, List.mem_cons_self _ _, by rw [hcl, hk]⟩
      · obtain ⟨l, hl, hc⟩ := ih _ hin
        exact ⟨l, List.mem_cons_of_mem _ hl, hc⟩
    | bad =>
      rw [hcl] at h
      obtain ⟨l, hl, hc⟩ := ih _ h
      exact ⟨l, List.mem_cons_of_mem _ hl, hc⟩

/-- C2, amended part.  Every dependency key the structured strategy
produces is also produced by the fallback strategy (for any manifest text,
well-formed or not): every block entry line also matches the fallback
regex with the same captured key. -/
theorem claim2_fallback_superset (content : String) (k : String)
    (h : k ∈ structDepKeys content) : k ∈ fallbackDepKeys content := by
  simp only [structDepKeys, List.mem_map] at h
  obtain ⟨k0, hk0, rfl⟩ := h
  obtain ⟨line, hline, hcl⟩ := mem_yamlDepsGo _ _ hk0
  simp only [fallbackDepKeys, List.mem_map]
  refine ⟨k0, List.mem_filterMap.2 ⟨line, hline, ?_⟩, rfl⟩
  exact fallback_of_indent hcl

/-- C2, counterexample.  A well-formed manifest on which the two strategies
disagree: the fallback also captures the top-level keys `name` and
`dependencies`, which are not dependency keys of the structured parse, so
the key sets differ. -/
theorem claim2_counterexample :
    wellFormedManifest "name: myapp\ndependencies:\n  http: ^1.0.0" = true ∧
      "name" ∈ fallbackDepKeys "name: myapp\ndependencies:\n  http: ^1.0.0" ∧
      "name" ∉ structDepKeys "name: myapp\ndependencies:\n  http: ^1.0.0" := by
  decide

/-- C2, witness for the amended statement at the same manifest. -/
theorem claim2_witness :
    "http" ∈ structDepKeys "name: myapp\ndependencies:\n  http: ^1.0.0" ∧
      "http" ∈ fallbackDepKeys "name: myapp\ndependencies:\n  http: ^1.0.0" :=
  ⟨by decide,
    claim2_fallback_superset "name: myapp\ndependencies:\n  http: ^1.0.0"
      "http" (by decide)⟩

/-! ## Claims C5 and C9: the import editor -/

theorem take_append_le {l₁ l₂ : List Char} {n : Nat} (h : n ≤ l₁.length) :
    (l₁ ++ l₂).take n = l₁.take n := by
  have hlen : (l₁.take n).length = n := by
    rw [List.length_take]
    omega
  calc (l₁ ++ l₂).take n
      = ((l₁.take n ++ l₁.drop n) ++ l₂).take n := by rw [List.take_append_drop]
    _ = (l₁.take n ++ (l₁.drop n ++ l₂)).take n := by rw [List.append_assoc]
    _ = l₁.take n := List.take_left' hlen

theorem countOccs_cons (pat : List Char) (c : Char) (l : List Char) :
    countOccs pat (c :: l) =
      (if pat.isPrefixOf (c :: l) then 1 else 0) + countOccs pat l := rfl

theorem countOccs_zero_iff (pat : List Char) (l : List Char) :
    countOccs pat l = 0 ↔ containsSub pat l = false := by
  induction l with
  | nil =>
    cases hp : pat.isPrefixOf ([] : List Char) <;>
      simp [countOccs, containsSub, hp]
  | cons c l ih =>
    cases hp : pat.isPrefixOf (c :: l) <;>
      simp [countOccs_cons, containsSub, hp, ih]

theorem middle_not_prefixOf {q : List Char} (hq : '\n' ∉ q) {m : List Char}
    (rest : List Char) (hm : m ≠ []) (hlt : m.length < (q ++ ['\n']).length)
    (t : List Char) (ht : t ++ m = q ++ ['\n']) :
    (q ++ ['\n']).isPrefixOf (m ++ rest) = false := by
  cases hp : (q ++ ['\n']).isPrefixOf (m ++ rest) with
  | false => rfl
  | true =>
    exfalso
    obtain ⟨u, hu⟩ := (prefixOf_iff_exists _ _).1 hp
    have hm1 : m = (q ++ ['\n']).take m.length := by
      have h2 := congrArg (List.take m.length) hu
      rw [take_append_le (Nat.le_of_lt hlt), List.take_left' rfl] at h2
      exact h2.symm
    have hnl : '\n' ∈ m := by
      rcases List.eq_nil_or_concat m with rfl | ⟨m0, a, rfl⟩
      · exact absurd rfl hm
      · have hshape : (t ++ m0) ++ [a] = q ++ ['\n'] := by
          rw [List.append_assoc]
          simpa using ht
        have ha : ([a] : List Char) = ['\n'] :=
          List.append_inj_right' hshape (by simp)
        injection ha with ha
        simp [ha]
    have hle : m.length ≤ q.length := by
      have : (q ++ ['\n']).length = q.length + 1 := by simp
      omega
    have hmq : m = q.take m.length := by
      conv_lhs => rw [hm1]
      exact take_append_le hle
    exact hq (List.take_subset _ _ (hmq ▸ hnl))

theorem countOccs_skips_proper_suffix {q : List Char} (hq : '\n' ∉ q) :
    ∀ (s rest t : List Char), t ≠ [] → t ++ s = q ++ ['\n'] →
      countOccs (q ++ ['\n']) (s ++ rest) = countOccs (q ++ ['\n']) rest := by
  intro s
  induction s with
  | nil => intro rest t _ _; rfl
  | cons c s ih =>
    intro rest t hne ht
    have hmne : (c :: s) ≠ [] := List.cons_ne_nil c s
    have hlen : (c :: s).length < (q ++ ['\n']).length := by
      have hl := congrArg List.length ht
      simp only [List.length_append, List.length_cons, List.length_singleton]
        at hl ⊢
      have htl : 0 < t.length := List.length_pos.2 hne
      omega
    have hpf := middle_not_prefixOf hq rest hmne hlen t ht
    have ht' : (t ++ [c]) ++ s = q ++ ['\n'] := by
      rw [← List.append_cons]
      exact ht
    have hstep : countOccs (q ++ ['\n']) ((c :: s) ++ rest) =
        (if (q ++ ['\n']).isPrefixOf ((c :: s) ++ rest) then 1 else 0) +
          countOccs (q ++ ['\n']) (s ++ rest) := countOccs_cons _ _ _
    rw [hstep, hpf]
    simp only [Bool.false_eq_true, if_false, Nat.zero_add]
    exact ih rest (t ++ [c]) (by simp) ht'

theorem countOccs_self_append {q : List Char} (hq : '\n' ∉ q)
    (rest : List Char) :
    countOccs (q ++ ['\n']) ((q ++ ['\n']) ++ rest) =
      1 + countOccs (q ++ ['\n']) rest := by
  obtain ⟨c, p', hpat⟩ : ∃ c p', q ++ ['\n'] = c :: p' := by
    cases hq2 : q ++ ['\n'] with
    | nil => simp at hq2
    | cons c p' => exact ⟨c, p', rfl⟩
  have hshape : (q ++ ['\n']) ++ rest = c :: (p' ++ rest) := by
    rw [hpat]
    rfl
  have hpre : (q ++ ['\n']).isPrefixOf (c :: (p' ++ rest)) = true := by
    rw [← hshape]
    exact (prefixOf_iff_exists _ _).2 ⟨rest, rfl⟩
  calc countOccs (q ++ ['\n']) ((q ++ ['\n']) ++ rest)
      = countOccs (q ++ ['\n']) (c :: (p' ++ rest)) := by rw [hshape]
    _ = (if (q ++ ['\n']).isPrefixOf (c :: (p' ++ rest)) then 1 else 0) +
        countOccs (q ++ ['\n']) (p' ++ rest) := countOccs_cons _ _ _
    _ = 1 + countOccs (q ++ ['\n']) (p' ++ rest) := by rw [hpre]; simp
    _ = 1 + countOccs (q ++ ['\n']) rest := by
        rw [countOccs_skips_proper_suffix hq p' rest [c] (by simp)
          (by simpa using hpat.symm)]

/-- Body of the canonical import line before its final newline. -/
def canonicalBody (p : List Char) : List Char :=
  "import 'package:".data ++ p ++ '/' :: p ++ ".dart';".data

theorem canonicalImport_eq_body (p : List Char) :
    canonicalImportChars p = canonicalBody p ++ ['\n'] := rfl

theorem newline_not_mem_body {p : List Char} (hp : '\n' ∉ p) :
    '\n' ∉ canonicalBody p := by
  intro h
  simp only [canonicalBody, List.mem_append, List.mem_cons] at h
  rcases h with ((h | h) | (h | h)) | h
  · exact absurd h (by decide)
  · exact hp h
  · exact absurd h (by decide)
  · exact hp h
  · exact absurd h (by decide)

theorem countOccs_import_append {p : List Char} (hp : '\n' ∉ p)
    (rest : List Char) :
    countOccs (canonicalImportChars p) (canonicalImportChars p ++ rest) =
      1 + countOccs (canonicalImportChars p) rest := by
  rw [canonicalImport_eq_body]
  exact countOccs_self_append (newline_not_mem_body hp) rest

theorem deleteRange_zero (x : List Char) : deleteRange x 0 0 = x := by
  simp [deleteRange]

/-- C5, amended.  Two successive applications of the import editor (the
second with an empty selection range) leave at most one occurrence of the
canonical import line, provided the original document holds at most one
occurrence and deleting the selection range does not create additional
occurrences.  (The counterexample shows the unrestricted claim fails.) -/
theorem claim5_ensureImported_amended (p doc : List Char) (r : Nat × Nat)
    (hp : '\n' ∉ p)
    (h1 : countOccs (canonicalImportChars p) doc ≤ 1)
    (h2 : countOccs (canonicalImportChars p) (deleteRange doc r.1 r.2) ≤
      countOccs (canonicalImportChars p) doc) :
    countOccs (canonicalImportChars p)
      (addImportStatement p (addImportStatement p doc r) (0, 0)) ≤ 1 := by
  cases hc1 : containsSub (canonicalImportChars p) doc with
  | true =>
    have hfirst : addImportStatement p doc r = deleteRange doc r.1 r.2 := by
      rw [addImportStatement, if_pos hc1]
    have hd1 : countOccs (canonicalImportChars p) (deleteRange doc r.1 r.2) ≤ 1 :=
      Nat.le_trans h2 h1
    rw [hfirst]
    cases hc2 : containsSub (canonicalImportChars p) (deleteRange doc r.1 r.2) with
    | true =>
      rw [addImportStatement, if_pos hc2, deleteRange_zero]
      exact hd1
    | false =>
      rw [addImportStatement, if_neg (by simp [hc2]), deleteRange_zero,
        countOccs_import_append hp]
      rw [(countOccs_zero_iff _ _).2 hc2]
  | false =>
    have hz : countOccs (canonicalImportChars p) doc = 0 :=
      (countOccs_zero_iff _ _).2 hc1
    have hz1 : countOccs (canonicalImportChars p) (deleteRange doc r.1 r.2) = 0 := by
      omega
    have hfirst : addImportStatement p doc r =
        canonicalImportChars p ++ deleteRange doc r.1 r.2 := by
      rw [addImportStatement, if_neg (by simp [hc1])]
    rw [hfirst]
    have hc2 : containsSub (canonicalImportChars p)
        (canonicalImportChars p ++ deleteRange doc r.1 r.2) = true :=
      (containsSub_iff _ _).2 ⟨[], deleteRange doc r.1 r.2, by simp⟩
    rw [addImportStatement, if_pos hc2, deleteRange_zero,
      countOccs_import_append hp, hz1]

/-- C5, counterexample.  On a document that already contains two copies of
the canonical line, two applications of the import editor (the second with
an empty range) still leave a document with two import lines for the same
package, refuting the unrestricted idempotence claim. -/
theorem claim5_counterexample :
    2 ≤ countOccs (canonicalImportChars ['p'])
      (addImportStatement ['p']
        (addImportStatement ['p']
          (canonicalImportChars ['p'] ++ canonicalImportChars ['p']) (0, 0))
        (0, 0)) := by
  decide

/-- C5, witness for the amended statement at a concrete document. -/
theorem claim5_witness :
    ('\n' ∉ (['p'] : List Char)) ∧
      countOccs (canonicalImportChars ['p']) ("void main();".data) ≤ 1 ∧
      countOccs (canonicalImportChars ['p'])
          (deleteRange ("void main();".data) 0 4) ≤
        countOccs (canonicalImportChars ['p']) ("void main();".data) ∧
      countOccs (canonicalImportChars ['p'])
        (addImportStatement ['p']
          (addImportStatement ['p'] ("void main();".data) (0, 4)) (0, 0)) ≤ 1 :=
  ⟨by decide, by decide, by decide,
    claim5_ensureImported_amended ['p'] ("void main();".data) (0, 4)
      (by decide) (by decide) (by decide)⟩

/-- C9.  When the canonical line is not contained in the document, the
single edit of the import editor yields the import line at the very start of
the document followed by exactly the original content with the selection
range removed. -/
theorem claim9_insert_at_start (p doc : List Char) (r : Nat × Nat)
    (h : containsSub (canonicalImportChars p) doc = false) :
    canonicalImportChars p <+: addImportStatement p doc r ∧
      (addImportStatement p doc r).drop (canonicalImportChars p).length =
        doc.take r.1 ++ doc.drop r.2 := by
  have hfirst : addImportStatement p doc r =
      canonicalImportChars p ++ (doc.take r.1 ++ doc.drop r.2) := by
    rw [addImportStatement, if_neg (by simp [h])]
    rfl
  rw [hfirst]
  exact ⟨⟨_, rfl⟩, List.drop_left _ _⟩

/-- C9, witness at a concrete document and range. -/
theorem claim9_witness :
    containsSub (canonicalImportChars ['p']) ("void main();".data) = false ∧
      canonicalImportChars ['p'] <+:
        addImportStatement ['p'] ("void main();".data) (0, 4) ∧
      (addImportStatement ['p'] ("void main();".data) (0, 4)).drop
          (canonicalImportChars ['p']).length =
        ("void main();".data).take 0 ++ ("void main();".data).drop 4 :=
  ⟨by decide,
    (claim9_insert_at_start ['p'] ("void main();".data) (0, 4) (by decide)).1,
    (claim9_insert_at_start ['p'] ("void main();".data) (0, 4) (by decide)).2⟩

end AutoImport
